import Mathlib

/-!
Shallow embedding of `alphasim/portfolio.py` (`distribute`, `to_weights`,
`allocate`, `_buffered_target`) and proofs of the specification claims.

Float-valued pandas/numpy series are modelled as lists of `PFloat`: an
exact real value (carried as `ℚ`) extended with the IEEE special values
`+inf`, `-inf` and `NaN`.  Rounding is not modelled — arithmetic on finite
values is exact — but the special-value rules (NaN propagation, NaN
comparing false under every order relation, division by zero producing a
signed infinity, `inf - inf = NaN`, `inf * 0 = NaN`) follow IEEE-754 as
implemented by numpy/pandas elementwise operations.
-/

namespace AlphaSim

/-- A float value: an exact rational, one of the two infinities, or NaN. -/
inductive PFloat where
  | real : ℚ → PFloat
  | pinf : PFloat
  | ninf : PFloat
  | nan  : PFloat
deriving DecidableEq, Repr

namespace PFloat

/-- Negation. -/
def neg : PFloat → PFloat
  | real a => real (-a)
  | pinf => ninf
  | ninf => pinf
  | nan => nan

/-- Addition with IEEE special-value rules (`inf + -inf = NaN`). -/
def add : PFloat → PFloat → PFloat
  | nan, _ => nan
  | _, nan => nan
  | real a, real b => real (a + b)
  | real _, pinf => pinf
  | real _, ninf => ninf
  | pinf, real _ => pinf
  | ninf, real _ => ninf
  | pinf, pinf => pinf
  | pinf, ninf => nan
  | ninf, pinf => nan
  | ninf, ninf => ninf

/-- Subtraction, defined as in IEEE by `a + (-b)`. -/
def sub (a b : PFloat) : PFloat := add a (neg b)

/-- Multiplication with IEEE special-value rules (`inf * 0 = NaN`). -/
def mul : PFloat → PFloat → PFloat
  | nan, _ => nan
  | _, nan => nan
  | real a, real b => real (a * b)
  | real a, pinf => if 0 < a then pinf else if a < 0 then ninf else nan
  | real a, ninf => if 0 < a then ninf else if a < 0 then pinf else nan
  | pinf, real b => if 0 < b then pinf else if b < 0 then ninf else nan
  | ninf, real b => if 0 < b then ninf else if b < 0 then pinf else nan
  | pinf, pinf => pinf
  | pinf, ninf => ninf
  | ninf, pinf => ninf
  | ninf, ninf => pinf

/-- Division with IEEE special-value rules: a nonzero real divided by zero
is a signed infinity, `0 / 0 = NaN`, `inf / inf = NaN`. -/
def div : PFloat → PFloat → PFloat
  | nan, _ => nan
  | _, nan => nan
  | real a, real b =>
      if b = 0 then (if 0 < a then pinf else if a < 0 then ninf else nan)
      else real (a / b)
  | real _, pinf => real 0
  | real _, ninf => real 0
  | pinf, real b => if b < 0 then ninf else pinf
  | ninf, real b => if b < 0 then pinf else ninf
  | pinf, pinf => nan
  | pinf, ninf => nan
  | ninf, pinf => nan
  | ninf, ninf => nan

/-- Strict order; NaN compares false against everything. -/
def lt : PFloat → PFloat → Bool
  | nan, _ => false
  | _, nan => false
  | ninf, ninf => false
  | ninf, _ => true
  | _, ninf => false
  | pinf, _ => false
  | real _, pinf => true
  | real a, real b => a < b

/-- `a > b`, i.e. `b < a`; NaN compares false against everything. -/
def gt (a b : PFloat) : Bool := lt b a

/-- Non-strict order; NaN compares false against everything. -/
def le : PFloat → PFloat → Bool
  | nan, _ => false
  | _, nan => false
  | ninf, _ => true
  | _, ninf => false
  | pinf, pinf => true
  | pinf, _ => false
  | real _, pinf => true
  | real a, real b => a ≤ b

/-- Absolute value. -/
def abs : PFloat → PFloat
  | real a => real |a|
  | pinf => pinf
  | ninf => pinf
  | nan => nan

/-- Elementwise `isna`: true exactly on NaN (infinities are not NA). -/
def isna : PFloat → Bool
  | nan => true
  | _ => false

/-- Elementwise `.eq(0)` with NaN comparing false. -/
def eqZero : PFloat → Bool
  | real a => a = 0
  | _ => false

/-- Elementwise `.gt(0)` with NaN comparing false. -/
def gtZero (a : PFloat) : Bool := lt (real 0) a

/-- `fillna(0)`: replace NaN by `0`; infinities are untouched. -/
def fillZero : PFloat → PFloat
  | nan => real 0
  | a => a

end PFloat

/-- Embedding of `_buffered_target(x, y, b)`: `target = y`; if
`y < x - b` then `target = x - b`; if `y > x + b` then `target = x + b`. -/
def buffered_target (x y : PFloat) (b : ℚ) : PFloat :=
  let target := y
  let target := if PFloat.lt y (PFloat.sub x (PFloat.real b)) then PFloat.sub x (PFloat.real b) else target
  let target := if PFloat.gt y (PFloat.add x (PFloat.real b)) then PFloat.add x (PFloat.real b) else target
  target

/-- The six aligned per-instrument outputs of `allocate`. -/
structure AllocRow where
  startWeight : PFloat
  targetWeight : PFloat
  adjTargetWeight : PFloat
  adjDeltaWeight : PFloat
  tradeSize : PFloat
  tradeValue : PFloat
deriving DecidableEq, Repr

/-- Embedding of `allocate` for a single instrument: all series
operations in the source are elementwise, so the per-instrument
computation is: `start_weight = marked_portfolio / capital`; buffered
target; mask overrides for `ignore_buffer_on_new` (`|target| ≤ buffer`
and `start == 0`) and `liquidate_on_nan` (`target` is NA and
`|start| > 0`); `adj_delta = adj_target - start`;
`trade_value = adj_delta * capital`;
`trade_size = (trade_value / price).fillna(0)`. -/
def allocateOne (capital : ℚ) (price marked target : PFloat)
    (tradeBuffer : ℚ) (ignoreBufferOnNew liquidateOnNan : Bool) : AllocRow :=
  let startWeight := PFloat.div marked (PFloat.real capital)
  let adj0 := buffered_target target startWeight tradeBuffer
  let adj1 :=
    if ignoreBufferOnNew && PFloat.le (PFloat.abs target) (PFloat.real tradeBuffer)
        && PFloat.eqZero startWeight
    then target else adj0
  let adj2 :=
    if liquidateOnNan && PFloat.isna target && PFloat.gtZero (PFloat.abs startWeight)
    then PFloat.real 0 else adj1
  let adjDelta := PFloat.sub adj2 startWeight
  let tradeValue := PFloat.mul adjDelta (PFloat.real capital)
  let tradeSize := PFloat.fillZero (PFloat.div tradeValue price)
  ⟨startWeight, target, adj2, adjDelta, tradeSize, tradeValue⟩

/-- Embedding of `allocate` over aligned series (lists share one index
order, as pandas label alignment guarantees in the source). -/
def allocate (capital : ℚ) (price marked target : List PFloat)
    (tradeBuffer : ℚ) (ignoreBufferOnNew liquidateOnNan : Bool) : List AllocRow :=
  (price.zip (marked.zip target)).map
    (fun pmt => allocateOne capital pmt.1 pmt.2.1 pmt.2.2
      tradeBuffer ignoreBufferOnNew liquidateOnNan)

/-- Embedding of `np.copysign(a, b)`: the magnitude of `a` with the sign
of `b` (zero counts as positive, matching `+0.0`). -/
def copysign (a b : ℚ) : ℚ := if b < 0 then -|a| else |a|

/-- Embedding of `to_weights(x)`:
`weights = x.abs(); weights /= weights.sum(); return np.copysign(weights, x)`.
The forecast scores are real-valued, so the series is a plain `List ℚ`. -/
def to_weights (x : List ℚ) : List ℚ :=
  let s := (x.map (fun v => |v|)).sum
  x.map (fun v => copysign (|v| / s) v)

/-- The sign function used to state the WeightNormalizer claim. -/
def qsign (v : ℚ) : ℚ := if v < 0 then -1 else if v = 0 then 0 else 1

/-- Embedding of the objective `np.sum(np.square(x - weights))` built by
`distribute`. -/
def objective (weights x : List ℚ) : ℚ :=
  (List.zipWith (fun a b => (a - b) ^ 2) x weights).sum

/-- Embedding of `np.amax(np.abs(x))` over a series (`0` on the empty
series, which `distribute` is never given). -/
def maxAbs (x : List ℚ) : ℚ := (x.map (fun a => |a|)).foldr max 0

/-- The feasible set of the program `distribute` hands to the optimizer:
box bounds `(0, 1)` per component, the inequality constraint
`max_weight - np.amax(np.abs(x)) ≥ 0`, and the equality constraint
`np.sum(x) - np.sum(weights) = 0`. -/
def DistributeFeasible (weights : List ℚ) (max_weight : ℚ) (x : List ℚ) : Prop :=
  x.length = weights.length ∧ (∀ a ∈ x, 0 ≤ a ∧ a ≤ 1) ∧
    maxAbs x ≤ max_weight ∧ x.sum = weights.sum

/-- `x` solves the mathematical program of `distribute`: `x` is feasible
and minimizes the objective over the feasible set.  The iterative
floating-point solver itself is outside the embedding; the claims about
`distribute`'s output are settled against exact solutions of this
program. -/
def IsDistributeSolution (weights : List ℚ) (max_weight : ℚ) (x : List ℚ) : Prop :=
  DistributeFeasible weights max_weight x ∧
    ∀ y, DistributeFeasible weights max_weight y → objective weights x ≤ objective weights y

theorem objective_nonneg (weights x : List ℚ) : 0 ≤ objective weights x := by
  induction x generalizing weights with
  | nil => simp [objective]
  | cons a t ih =>
    cases weights with
    | nil => simp [objective]
    | cons b u =>
      have h := ih u
      simp only [objective, List.zipWith_cons_cons, List.sum_cons] at h ⊢
      have hsq : (0:ℚ) ≤ (a - b) ^ 2 := sq_nonneg _
      linarith

theorem objective_self (weights : List ℚ) : objective weights weights = 0 := by
  induction weights with
  | nil => simp [objective]
  | cons a t ih =>
    simp only [objective] at ih
    simp [objective, List.zipWith_cons_cons, ih]

theorem objective_eq_zero (weights x : List ℚ) (hlen : x.length = weights.length)
    (h : objective weights x = 0) : x = weights := by
  induction x generalizing weights with
  | nil =>
    cases weights with
    | nil => rfl
    | cons b u => simp at hlen
  | cons a t ih =>
    cases weights with
    | nil => simp at hlen
    | cons b u =>
      simp only [objective, List.zipWith_cons_cons, List.sum_cons] at h
      have hsq : (0:ℚ) ≤ (a - b) ^ 2 := sq_nonneg _
      have hrest : 0 ≤ objective u t := objective_nonneg u t
      simp only [objective] at hrest
      have hz : (a - b) ^ 2 = 0 := by linarith
      have hab : a = b := by
        have := pow_eq_zero_iff (n := 2) (by norm_num) |>.mp hz
        linarith [this]
      have htu : t = u := by
        apply ih
        · simpa using hlen
        · simp only [objective]; linarith
      rw [hab, htu]

theorem sum_map_abs_nonneg (x : List ℚ) : 0 ≤ (x.map (fun v => |v|)).sum := by
  induction x with
  | nil => simp
  | cons a t ih =>
    simp only [List.map_cons, List.sum_cons]
    exact add_nonneg (abs_nonneg a) ih

theorem abs_copysign (a b : ℚ) : |copysign a b| = |a| := by
  unfold copysign
  split_ifs with h
  · rw [abs_neg, abs_abs]
  · rw [abs_abs]

theorem sum_abs_copysign_div (x : List ℚ) (s : ℚ) (hs : 0 < s) :
    ((x.map (fun v => copysign (|v| / s) v)).map (fun v => |v|)).sum
      = (x.map (fun v => |v|)).sum / s := by
  induction x with
  | nil => simp
  | cons a t ih =>
    simp only [List.map_cons, List.sum_cons, ih]
    rw [abs_copysign, abs_of_nonneg (div_nonneg (abs_nonneg a) hs.le), add_div]

theorem copysign_div_eq (a s : ℚ) (hs : 0 < s) :
    copysign (|a| / s) a = qsign a * |a| / s := by
  unfold copysign qsign
  rcases lt_trichotomy a 0 with h | h | h
  · rw [if_pos h, if_pos h,
      abs_of_nonneg (div_nonneg (abs_nonneg a) hs.le)]
    ring
  · subst h
    norm_num
  · rw [if_neg (not_lt.mpr h.le), if_neg (not_lt.mpr h.le), if_neg h.ne',
      abs_of_nonneg (div_nonneg (abs_nonneg a) hs.le)]
    ring

theorem allocate_getElem (capital : ℚ) (price marked target : List PFloat)
    (b : ℚ) (f1 f2 : Bool) (i : ℕ)
    (hp : i < price.length) (hm : i < marked.length) (ht : i < target.length) :
    ∃ hlen : i < (allocate capital price marked target b f1 f2).length,
      (allocate capital price marked target b f1 f2).get ⟨i, hlen⟩ =
        allocateOne capital (price.get ⟨i, hp⟩) (marked.get ⟨i, hm⟩)
          (target.get ⟨i, ht⟩) b f1 f2 := by
  have hlen : i < (allocate capital price marked target b f1 f2).length := by
    simp only [allocate, List.length_map, List.length_zip]
    omega
  refine ⟨hlen, ?_⟩
  simp [allocate, List.get_eq_getElem, List.getElem_map, List.getElem_zip]

theorem PFloat.sub_real (a b : ℚ) :
    PFloat.sub (PFloat.real a) (PFloat.real b) = PFloat.real (a - b) := by
  simp [PFloat.sub, PFloat.add, PFloat.neg, sub_eq_add_neg]

theorem PFloat.add_real (a b : ℚ) :
    PFloat.add (PFloat.real a) (PFloat.real b) = PFloat.real (a + b) := rfl

theorem PFloat.mul_real (a b : ℚ) :
    PFloat.mul (PFloat.real a) (PFloat.real b) = PFloat.real (a * b) := rfl

theorem PFloat.div_real (a b : ℚ) (hb : b ≠ 0) :
    PFloat.div (PFloat.real a) (PFloat.real b) = PFloat.real (a / b) := by
  simp [PFloat.div, hb]

theorem buffered_target_real (x y b : ℚ) :
    buffered_target (PFloat.real x) (PFloat.real y) b =
      if x + b < y then PFloat.real (x + b)
      else if y < x - b then PFloat.real (x - b)
      else PFloat.real y := by
  simp only [buffered_target, PFloat.sub_real, PFloat.add_real, PFloat.lt,
    PFloat.gt, decide_eq_true_eq]

theorem buffered_target_zero (x s : ℚ) :
    buffered_target (PFloat.real x) (PFloat.real s) 0 = PFloat.real x := by
  rw [buffered_target_real]
  split_ifs with h1 h2
  · norm_num
  · norm_num
  · have : s = x := le_antisymm (by linarith) (by linarith)
    rw [this]

theorem buffered_target_nan_center (y : PFloat) (b : ℚ) :
    buffered_target PFloat.nan y b = y := by
  cases y <;> rfl

/-- Claim C1: for an instrument with defined (non-NaN) target weight `x`,
start weight `y`, and trade buffer `b ≥ 0`, the adjusted target follows
the hysteresis rule — `x - b` when `y < x - b`, `x + b` when `y > x + b`,
and `y` otherwise; `allocate` with both policy flags off computes exactly
this buffered target from `target_weight` and `start_weight`; and the two
concrete spec examples give `0.17` and `0.10`. -/
theorem buffered_target_hysteresis (x y b : ℚ) (hb : 0 ≤ b) :
    ((y < x - b →
        buffered_target (PFloat.real x) (PFloat.real y) b = PFloat.real (x - b)) ∧
     (y > x + b →
        buffered_target (PFloat.real x) (PFloat.real y) b = PFloat.real (x + b)) ∧
     (x - b ≤ y → y ≤ x + b →
        buffered_target (PFloat.real x) (PFloat.real y) b = PFloat.real y)) ∧
    (∀ (capital m : ℚ) (price : PFloat), capital ≠ 0 →
      (allocateOne capital price (PFloat.real m) (PFloat.real x) b false false).adjTargetWeight
        = buffered_target (PFloat.real x) (PFloat.real (m / capital)) b) ∧
    buffered_target (PFloat.real 0.2) (PFloat.real 0.1) 0.03 = PFloat.real 0.17 ∧
    buffered_target (PFloat.real 0.11) (PFloat.real 0.1) 0.03 = PFloat.real 0.1 := by
  refine ⟨⟨?_, ?_, ?_⟩, ?_, ?_, ?_⟩
  · intro h
    rw [buffered_target_real, if_neg (by linarith), if_pos h]
  · intro h
    rw [buffered_target_real, if_pos h]
  · intro h1 h2
    rw [buffered_target_real, if_neg (by linarith), if_neg (by linarith)]
  · intro capital m price hcap
    simp [allocateOne, PFloat.div, hcap]
  · rw [buffered_target_real]
    norm_num
  · rw [buffered_target_real]
    norm_num

theorem buffered_target_hysteresis_witness :
    ((0:ℚ) < 1 - (1/2 : ℚ)) ∧
      buffered_target (PFloat.real 1) (PFloat.real 0) (1/2)
        = PFloat.real (1 - 1/2) :=
  ⟨by norm_num,
    (buffered_target_hysteresis 1 0 (1/2) (by norm_num)).1.1 (by norm_num)⟩

/-- Claim C7 counterexample: with `trade_buffer = 0` and both flags off,
an instrument whose `target_weight` is NaN gets
`adjusted_target_weight = start_weight` (here `0.5`), not
`target_weight` — so "adjusted_target_weight equals target_weight for
every instrument" fails at `capital = 1`, `price = 1`,
`marked_portfolio = 0.5`, `target_weight = NaN`. -/
theorem zero_buffer_nan_counterexample :
    (allocateOne 1 (PFloat.real 1) (PFloat.real (1/2)) PFloat.nan 0 false false).adjTargetWeight
      = PFloat.real (1/2) ∧
    (allocateOne 1 (PFloat.real 1) (PFloat.real (1/2)) PFloat.nan 0 false false).targetWeight
      = PFloat.nan ∧
    (allocateOne 1 (PFloat.real 1) (PFloat.real (1/2)) PFloat.nan 0 false false).adjTargetWeight
      ≠ (allocateOne 1 (PFloat.real 1) (PFloat.real (1/2)) PFloat.nan 0 false false).targetWeight := by
  refine ⟨?_, rfl, ?_⟩ <;>
    simp [allocateOne, PFloat.div, buffered_target_nan_center, PFloat.abs,
      PFloat.le, PFloat.isna]

/-- Claim C7 (amended): with `trade_buffer = 0` and both flags off, for
every instrument whose `target_weight` and `start_weight` are both
defined reals, `adjusted_target_weight = target_weight` exactly and
`adjusted_delta_weight = target_weight - start_weight`. -/
theorem zero_buffer_identity (capital x m : ℚ) (price : PFloat)
    (hcap : capital ≠ 0) :
    (allocateOne capital price (PFloat.real m) (PFloat.real x) 0 false false).adjTargetWeight
      = PFloat.real x ∧
    (allocateOne capital price (PFloat.real m) (PFloat.real x) 0 false false).adjDeltaWeight
      = PFloat.real (x - m / capital) := by
  constructor <;>
    simp [allocateOne, PFloat.div, hcap, buffered_target_zero, PFloat.sub_real,
      PFloat.isna]

theorem zero_buffer_identity_witness :
    (allocateOne 2 (PFloat.real 1) (PFloat.real 1) (PFloat.real (1/2)) 0 false false).adjTargetWeight
      = PFloat.real (1/2) ∧
    (allocateOne 2 (PFloat.real 1) (PFloat.real 1) (PFloat.real (1/2)) 0 false false).adjDeltaWeight
      = PFloat.real (1/2 - 1/2) :=
  zero_buffer_identity 2 (1/2) 1 (PFloat.real 1) (by norm_num)

/-- Claim C6: with no existing position (`start_weight = 0`) and
`|target_weight| ≤ trade_buffer`, setting `ignore_buffer_on_new` makes
`allocate` take the raw `target_weight` as adjusted target, while with
the flag off the buffered value (here `0`) is kept; in particular
`target_weight = 0.01`, `trade_buffer = 0.03` gives `0.01` with the flag
set and `0` with it unset. -/
theorem ignore_buffer_on_new_override (capital x b : ℚ) (price : PFloat)
    (f2 : Bool) (hcap : capital ≠ 0) (hx : |x| ≤ b) :
    (allocateOne capital price (PFloat.real 0) (PFloat.real x) b true f2).adjTargetWeight
      = PFloat.real x ∧
    (allocateOne capital price (PFloat.real 0) (PFloat.real x) b false f2).adjTargetWeight
      = buffered_target (PFloat.real x) (PFloat.real 0) b ∧
    (allocateOne capital price (PFloat.real 0) (PFloat.real x) b false f2).adjTargetWeight
      = PFloat.real 0 ∧
    (allocateOne 1 (PFloat.real 1) (PFloat.real 0) (PFloat.real (1/100)) (3/100) true false).adjTargetWeight
      = PFloat.real (1/100) ∧
    (allocateOne 1 (PFloat.real 1) (PFloat.real 0) (PFloat.real (1/100)) (3/100) false false).adjTargetWeight
      = PFloat.real 0 := by
  obtain ⟨hx1, hx2⟩ := abs_le.mp hx
  have hbuf : buffered_target (PFloat.real x) (PFloat.real 0) b = PFloat.real 0 := by
    rw [buffered_target_real, if_neg (by linarith), if_neg (by linarith)]
  refine ⟨?_, ?_, ?_, ?_, ?_⟩
  · simp [allocateOne, PFloat.div, hcap, PFloat.abs, PFloat.le, PFloat.eqZero,
      PFloat.isna, hx, zero_div]
  · simp [allocateOne, PFloat.div, hcap, PFloat.isna, zero_div]
  · simp [allocateOne, PFloat.div, hcap, PFloat.isna, zero_div, hbuf]
  · norm_num [allocateOne, PFloat.div, PFloat.abs, PFloat.le, PFloat.eqZero,
      PFloat.isna, buffered_target_real, abs_le]
  · norm_num [allocateOne, PFloat.div, PFloat.abs, PFloat.le, PFloat.eqZero,
      PFloat.isna, buffered_target_real, abs_le]

theorem ignore_buffer_on_new_override_witness :
    (allocateOne 1 (PFloat.real 1) (PFloat.real 0) (PFloat.real (1/100)) (3/100) true false).adjTargetWeight
      = PFloat.real (1/100) ∧
    (allocateOne 1 (PFloat.real 1) (PFloat.real 0) (PFloat.real (1/100)) (3/100) false false).adjTargetWeight
      = PFloat.real 0 :=
  ⟨(ignore_buffer_on_new_override 1 (1/100) (3/100) (PFloat.real 1) false
      (by norm_num) (by norm_num [abs_le])).2.2.2.1,
   (ignore_buffer_on_new_override 1 (1/100) (3/100) (PFloat.real 1) false
      (by norm_num) (by norm_num [abs_le])).2.2.2.2⟩

/-- Claim C5: with `liquidate_on_nan` set, an instrument with NaN
`target_weight` and nonzero `start_weight = m / capital` has its
adjusted target forced to `0`, so
`trade_value = -start_weight * capital`; in particular
`start_weight = 0.05` (capital `1000`, marked `50`) gives adjusted
target `0` and `trade_value = -0.05 * 1000`. -/
theorem liquidate_on_nan_forces_zero (capital m b : ℚ) (f1 : Bool)
    (price : PFloat) (hcap : capital ≠ 0) (hm : m ≠ 0) :
    (allocateOne capital price (PFloat.real m) PFloat.nan b f1 true).startWeight
      = PFloat.real (m / capital) ∧
    (allocateOne capital price (PFloat.real m) PFloat.nan b f1 true).adjTargetWeight
      = PFloat.real 0 ∧
    (allocateOne capital price (PFloat.real m) PFloat.nan b f1 true).tradeValue
      = PFloat.real (-(m / capital) * capital) ∧
    (allocateOne 1000 (PFloat.real 1) (PFloat.real 50) PFloat.nan 0 false true).adjTargetWeight
      = PFloat.real 0 ∧
    (allocateOne 1000 (PFloat.real 1) (PFloat.real 50) PFloat.nan 0 false true).tradeValue
      = PFloat.real (-(5/100) * 1000) := by
  have hs : m / capital ≠ 0 := div_ne_zero hm hcap
  have hpos : (0:ℚ) < |m / capital| := abs_pos.mpr hs
  refine ⟨?_, ?_, ?_, ?_, ?_⟩
  · simp [allocateOne, PFloat.div, hcap]
  · simp [allocateOne, PFloat.div, hcap, buffered_target_nan_center,
      PFloat.abs, PFloat.le, PFloat.isna, PFloat.gtZero, PFloat.lt, hpos]
  · have : -(m / capital) * capital = (0 - m / capital) * capital := by ring
    rw [this]
    simp [allocateOne, PFloat.div, hcap, buffered_target_nan_center,
      PFloat.abs, PFloat.le, PFloat.isna, PFloat.gtZero, PFloat.lt, hpos,
      PFloat.sub_real, PFloat.mul_real]
  · norm_num [allocateOne, PFloat.div, buffered_target_nan_center,
      PFloat.abs, PFloat.le, PFloat.isna, PFloat.gtZero, PFloat.lt]
  · norm_num [allocateOne, PFloat.div, buffered_target_nan_center,
      PFloat.abs, PFloat.le, PFloat.isna, PFloat.gtZero, PFloat.lt,
      PFloat.sub_real, PFloat.mul_real]

theorem liquidate_on_nan_forces_zero_witness :
    (allocateOne 1000 (PFloat.real 1) (PFloat.real 50) PFloat.nan 0 false true).adjTargetWeight
      = PFloat.real 0 ∧
    (allocateOne 1000 (PFloat.real 1) (PFloat.real 50) PFloat.nan 0 false true).tradeValue
      = PFloat.real (-(5/100) * 1000) :=
  ⟨(liquidate_on_nan_forces_zero 1000 50 0 false (PFloat.real 1)
      (by norm_num) (by norm_num)).2.2.2.1,
   (liquidate_on_nan_forces_zero 1000 50 0 false (PFloat.real 1)
      (by norm_num) (by norm_num)).2.2.2.2⟩

/-- Claim C10: an instrument with NaN `target_weight` whose
`liquidate_on_nan` flag is off (or whose `start_weight` is zero) keeps
its current position: `adjusted_target_weight = start_weight`, so
`adjusted_delta_weight = 0` and `trade_value = 0`. -/
theorem nan_target_holds_position (capital m b : ℚ) (f1 f2 : Bool)
    (price : PFloat) (hcap : capital ≠ 0)
    (h : f2 = false ∨ m / capital = 0) :
    (allocateOne capital price (PFloat.real m) PFloat.nan b f1 f2).startWeight
      = PFloat.real (m / capital) ∧
    (allocateOne capital price (PFloat.real m) PFloat.nan b f1 f2).adjTargetWeight
      = PFloat.real (m / capital) ∧
    (allocateOne capital price (PFloat.real m) PFloat.nan b f1 f2).adjDeltaWeight
      = PFloat.real 0 ∧
    (allocateOne capital price (PFloat.real m) PFloat.nan b f1 f2).tradeValue
      = PFloat.real 0 := by
  rcases h with h | h
  · subst h
    refine ⟨?_, ?_, ?_, ?_⟩ <;>
      simp [allocateOne, PFloat.div, hcap, buffered_target_nan_center,
        PFloat.abs, PFloat.le, PFloat.isna, PFloat.sub_real, PFloat.mul_real]
  · have hm0 : m = 0 := by
      rcases div_eq_zero_iff.mp h with h' | h'
      · exact h'
      · exact absurd h' hcap
    subst hm0
    refine ⟨?_, ?_, ?_, ?_⟩ <;>
      simp [allocateOne, PFloat.div, hcap, buffered_target_nan_center,
        PFloat.abs, PFloat.le, PFloat.isna, PFloat.sub_real, PFloat.mul_real,
        PFloat.gtZero, PFloat.lt]

theorem nan_target_holds_position_witness :
    (allocateOne 1 (PFloat.real 1) (PFloat.real (1/2)) PFloat.nan 0 false false).adjTargetWeight
      = PFloat.real ((1:ℚ)/2 / 1) ∧
    (allocateOne 1 (PFloat.real 1) (PFloat.real (1/2)) PFloat.nan 0 false false).adjDeltaWeight
      = PFloat.real 0 ∧
    (allocateOne 1 (PFloat.real 1) (PFloat.real (1/2)) PFloat.nan 0 false false).tradeValue
      = PFloat.real 0 :=
  ⟨(nan_target_holds_position 1 (1/2) 0 false false (PFloat.real 1)
      (by norm_num) (Or.inl rfl)).2.1,
   (nan_target_holds_position 1 (1/2) 0 false false (PFloat.real 1)
      (by norm_num) (Or.inl rfl)).2.2.1,
   (nan_target_holds_position 1 (1/2) 0 false false (PFloat.real 1)
      (by norm_num) (Or.inl rfl)).2.2.2⟩

theorem PFloat.div_nan (a : PFloat) : PFloat.div a PFloat.nan = PFloat.nan := by
  cases a <;> rfl

theorem allocateOne_tradeSize (capital : ℚ) (price marked target : PFloat)
    (b : ℚ) (f1 f2 : Bool) :
    (allocateOne capital price marked target b f1 f2).tradeSize
      = PFloat.fillZero (PFloat.div
          (allocateOne capital price marked target b f1 f2).tradeValue price) := rfl

theorem allocateOne_tradeValue_price (capital : ℚ) (p q marked target : PFloat)
    (b : ℚ) (f1 f2 : Bool) :
    (allocateOne capital p marked target b f1 f2).tradeValue
      = (allocateOne capital q marked target b f1 f2).tradeValue := rfl

/-- Claim C4 counterexample: at `capital = 100`, `price = 0`,
`marked_portfolio = 0`, `target_weight = 0.5`, the trade value is `50`
and `trade_size = trade_value / price` is `+inf`, not `0`: `fillna(0)`
replaces only NaN, and a nonzero real divided by zero is a signed
infinity, so the claim "`price` zero implies `trade_size = 0`" fails. -/
theorem trade_size_zero_price_counterexample :
    (allocateOne 100 (PFloat.real 0) (PFloat.real 0) (PFloat.real (1/2)) 0 false false).tradeValue
      = PFloat.real 50 ∧
    (allocateOne 100 (PFloat.real 0) (PFloat.real 0) (PFloat.real (1/2)) 0 false false).tradeSize
      = PFloat.pinf ∧
    (allocateOne 100 (PFloat.real 0) (PFloat.real 0) (PFloat.real (1/2)) 0 false false).tradeSize
      ≠ PFloat.real 0 := by
  have hts : (allocateOne 100 (PFloat.real 0) (PFloat.real 0) (PFloat.real (1/2)) 0 false false).tradeSize
      = PFloat.pinf := by
    norm_num [allocateOne, PFloat.div, buffered_target_real, PFloat.isna,
      PFloat.abs, PFloat.le, PFloat.eqZero, PFloat.sub_real, PFloat.mul_real,
      PFloat.fillZero]
  refine ⟨?_, hts, ?_⟩
  · norm_num [allocateOne, PFloat.div, buffered_target_real, PFloat.isna,
      PFloat.abs, PFloat.le, PFloat.eqZero, PFloat.sub_real, PFloat.mul_real]
  · rw [hts]
    exact fun hcontra => PFloat.noConfusion hcontra

/-- Claim C4 (amended): `trade_size = 0` when `price` is NaN, regardless
of `trade_value`; when `price = 0` and `trade_value` is a nonzero real
`t`, `trade_size` is `+inf` (for `t > 0`) or `-inf` (for `t < 0`), not
`0`; and for a real nonzero `price = p` with real `trade_value = t`,
`trade_size = t / p`. -/
theorem trade_size_price_cases (capital b : ℚ) (f1 f2 : Bool)
    (marked target : PFloat) :
    (allocateOne capital PFloat.nan marked target b f1 f2).tradeSize
      = PFloat.real 0 ∧
    (∀ t : ℚ,
      (allocateOne capital (PFloat.real 0) marked target b f1 f2).tradeValue
        = PFloat.real t →
      ((0 < t →
        (allocateOne capital (PFloat.real 0) marked target b f1 f2).tradeSize
          = PFloat.pinf) ∧
       (t < 0 →
        (allocateOne capital (PFloat.real 0) marked target b f1 f2).tradeSize
          = PFloat.ninf))) ∧
    (∀ p t : ℚ, p ≠ 0 →
      (allocateOne capital (PFloat.real p) marked target b f1 f2).tradeValue
        = PFloat.real t →
      (allocateOne capital (PFloat.real p) marked target b f1 f2).tradeSize
        = PFloat.real (t / p)) := by
  refine ⟨?_, ?_, ?_⟩
  · rw [allocateOne_tradeSize, PFloat.div_nan]
    rfl
  · intro t htv
    constructor
    · intro hpos
      rw [allocateOne_tradeSize, htv]
      simp [PFloat.div, PFloat.fillZero, hpos]
    · intro hneg
      rw [allocateOne_tradeSize, htv]
      simp [PFloat.div, PFloat.fillZero, hneg, asymm hneg]
  · intro p t hp htv
    rw [allocateOne_tradeSize, htv, PFloat.div_real t p hp]
    rfl

theorem trade_size_price_cases_witness :
    (allocateOne 100 (PFloat.real 0) (PFloat.real 0) (PFloat.real (1/2)) 0 false false).tradeSize
      = PFloat.pinf ∧
    (allocateOne 100 PFloat.nan (PFloat.real 0) (PFloat.real (1/2)) 0 false false).tradeSize
      = PFloat.real 0 := by
  have htv : (allocateOne 100 (PFloat.real 0) (PFloat.real 0) (PFloat.real (1/2)) 0 false false).tradeValue
      = PFloat.real 50 := by
    norm_num [allocateOne, PFloat.div, buffered_target_real, PFloat.isna,
      PFloat.abs, PFloat.le, PFloat.eqZero, PFloat.sub_real, PFloat.mul_real]
  exact ⟨((trade_size_price_cases 100 0 false false (PFloat.real 0)
      (PFloat.real (1/2))).2.1 50 htv).1 (by norm_num),
    (trade_size_price_cases 100 0 false false (PFloat.real 0)
      (PFloat.real (1/2))).1⟩

/-- Claim C8 counterexample: at `capital = 0` with a nonzero marked
position (`marked_portfolio = 1`), `start_weight = 1 / 0` is `+inf`,
a defined (non-NaN) float value — not "an undefined value for every
instrument" as claimed; only instruments with zero marked value get
NaN (`0 / 0`). -/
theorem capital_zero_counterexample :
    (allocateOne 0 (PFloat.real 1) (PFloat.real 1) (PFloat.real (1/2)) 0 false false).startWeight
      = PFloat.pinf ∧
    (allocateOne 0 (PFloat.real 1) (PFloat.real 1) (PFloat.real (1/2)) 0 false false).startWeight
      ≠ PFloat.nan := by
  have hsw : (allocateOne 0 (PFloat.real 1) (PFloat.real 1) (PFloat.real (1/2)) 0 false false).startWeight
      = PFloat.pinf := by
    norm_num [allocateOne, PFloat.div]
  refine ⟨hsw, ?_⟩
  rw [hsw]
  exact fun hcontra => PFloat.noConfusion hcontra

/-- Claim C8 (amended): `allocate` at `capital = 0` raises nothing (it is
a total function of the embedding) and no instrument gets a real
`start_weight`: a zero marked position yields NaN (`0 / 0`), a positive
one `+inf`, a negative one `-inf`; the degeneracy reaches the outputs as
`trade_value = NaN` for every instrument (`±inf * 0 = NaN`), for every
target, buffer and flag combination. -/
theorem capital_zero_propagation (m b : ℚ) (f1 f2 : Bool)
    (price target : PFloat) :
    ((m = 0 →
      (allocateOne 0 price (PFloat.real m) target b f1 f2).startWeight
        = PFloat.nan) ∧
     (0 < m →
      (allocateOne 0 price (PFloat.real m) target b f1 f2).startWeight
        = PFloat.pinf) ∧
     (m < 0 →
      (allocateOne 0 price (PFloat.real m) target b f1 f2).startWeight
        = PFloat.ninf)) ∧
    (allocateOne 0 price (PFloat.real m) target b f1 f2).tradeValue
      = PFloat.nan := by
  constructor
  · refine ⟨?_, ?_, ?_⟩
    · intro hm
      simp [allocateOne, PFloat.div, hm]
    · intro hm
      simp [allocateOne, PFloat.div, hm]
    · intro hm
      simp [allocateOne, PFloat.div, hm, asymm hm]
  · rcases lt_trichotomy m 0 with hm | hm | hm
    · have hm' : ¬ 0 < m := asymm hm
      cases target <;> cases f1 <;> cases f2 <;>
        simp [allocateOne, buffered_target, PFloat.div, PFloat.lt, PFloat.gt,
          PFloat.sub, PFloat.add, PFloat.neg, PFloat.mul, PFloat.abs,
          PFloat.le, PFloat.isna, PFloat.eqZero, PFloat.gtZero, hm, hm']
    · subst hm
      cases target <;> cases f1 <;> cases f2 <;>
        simp [allocateOne, buffered_target, PFloat.div, PFloat.lt, PFloat.gt,
          PFloat.sub, PFloat.add, PFloat.neg, PFloat.mul, PFloat.abs,
          PFloat.le, PFloat.isna, PFloat.eqZero, PFloat.gtZero]
    · cases target <;> cases f1 <;> cases f2 <;>
        simp [allocateOne, buffered_target, PFloat.div, PFloat.lt, PFloat.gt,
          PFloat.sub, PFloat.add, PFloat.neg, PFloat.mul, PFloat.abs,
          PFloat.le, PFloat.isna, PFloat.eqZero, PFloat.gtZero, hm]

theorem capital_zero_propagation_witness :
    (allocateOne 0 (PFloat.real 1) (PFloat.real 1) (PFloat.real (1/2)) 0 false false).startWeight
      = PFloat.pinf ∧
    (allocateOne 0 (PFloat.real 1) (PFloat.real 1) (PFloat.real (1/2)) 0 false false).tradeValue
      = PFloat.nan :=
  ⟨(capital_zero_propagation 1 0 false false (PFloat.real 1)
      (PFloat.real (1/2))).1.2.1 (by norm_num),
   (capital_zero_propagation 1 0 false false (PFloat.real 1)
      (PFloat.real (1/2))).2⟩

/-- Claim C2: for every forecast vector whose sum of absolute values
`s` is nonzero, the output of `to_weights` has absolute values summing
to `1`, each component equals `sign(x_i) * |x_i| / s`, and the sign of
every component matches the sign of the corresponding nonzero input. -/
theorem to_weights_normalizes (x : List ℚ)
    (hs : (x.map (fun v => |v|)).sum ≠ 0) :
    ((to_weights x).map (fun v => |v|)).sum = 1 ∧
    (to_weights x).length = x.length ∧
    ∀ i (hi : i < x.length) (hw : i < (to_weights x).length),
      (to_weights x)[i]
          = qsign x[i] * |x[i]| / (x.map (fun v => |v|)).sum ∧
      (x[i] ≠ 0 → qsign ((to_weights x)[i]) = qsign x[i]) := by
  have hpos : 0 < (x.map (fun v => |v|)).sum :=
    lt_of_le_of_ne (sum_map_abs_nonneg x) (Ne.symm hs)
  refine ⟨?_, ?_, ?_⟩
  · simp only [to_weights]
    rw [sum_abs_copysign_div x _ hpos, div_self hs]
  · simp [to_weights]
  · intro i hi hw
    have hget : (to_weights x)[i]
        = copysign (|x[i]| / (x.map (fun v => |v|)).sum) x[i] := by
      simp [to_weights, List.getElem_map]
    refine ⟨?_, ?_⟩
    · rw [hget, copysign_div_eq _ _ hpos]
    · intro hxi
      have habs : 0 < |x[i]| := abs_pos.mpr hxi
      have hdiv : 0 < |x[i]| / (x.map (fun v => |v|)).sum :=
        div_pos habs hpos
      rw [hget, copysign_div_eq _ _ hpos]
      rcases lt_trichotomy (x[i]) 0 with h | h | h
      · have hq : qsign (x[i]) = -1 := by
          unfold qsign
          rw [if_pos h]
        rw [hq]
        have heq : (-1 : ℚ) * |x[i]| / (x.map (fun v => |v|)).sum
            = -(|x[i]| / (x.map (fun v => |v|)).sum) := by ring
        have hv : (-1 : ℚ) * |x[i]| / (x.map (fun v => |v|)).sum < 0 := by
          rw [heq]
          exact neg_lt_zero.mpr hdiv
        unfold qsign
        rw [if_pos hv]
      · exact absurd h hxi
      · have hq : qsign (x[i]) = 1 := by
          unfold qsign
          rw [if_neg (not_lt.mpr h.le), if_neg h.ne']
        rw [hq]
        have hv : 0 < (1 : ℚ) * |x[i]| / (x.map (fun v => |v|)).sum := by
          rw [one_mul]
          exact hdiv
        unfold qsign
        rw [if_neg (not_lt.mpr hv.le), if_neg hv.ne']

theorem to_weights_normalizes_witness :
    ((to_weights [1, -2, (1:ℚ)]).map (fun v => |v|)).sum = 1 ∧
    (to_weights [1, -2, (1:ℚ)]).length = [1, -2, (1:ℚ)].length := by
  have h := to_weights_normalizes [1, -2, (1:ℚ)] (by norm_num)
  exact ⟨h.1, h.2.1⟩

/-- Claim C3: any exact solution of the constrained program built by
`distribute` is feasible — its sum equals the input sum and its largest
absolute component respects the cap — and whenever the input weights are
themselves feasible (components in `[0,1]`, maximum at most the cap),
the solution is the input itself (identity), by strict convexity of the
least-squares objective. -/
theorem distribute_solution (weights : List ℚ) (max_weight : ℚ)
    (x : List ℚ) (hx : IsDistributeSolution weights max_weight x) :
    (x.sum = weights.sum ∧ maxAbs x ≤ max_weight) ∧
    ((∀ a ∈ weights, 0 ≤ a ∧ a ≤ 1) → maxAbs weights ≤ max_weight →
      x = weights) := by
  obtain ⟨⟨hlen, hbox, hcap, hsum⟩, hmin⟩ := hx
  refine ⟨⟨hsum, hcap⟩, ?_⟩
  intro hwbox hwcap
  have hwfeas : DistributeFeasible weights max_weight weights :=
    ⟨rfl, hwbox, hwcap, rfl⟩
  have h1 : objective weights x ≤ 0 := by
    have h := hmin weights hwfeas
    rwa [objective_self] at h
  have h2 : objective weights x = 0 :=
    le_antisymm h1 (objective_nonneg weights x)
  exact objective_eq_zero weights x hlen h2

theorem distribute_solution_witness :
    IsDistributeSolution [(1:ℚ)] 1 [(1:ℚ)] ∧
    (([(1:ℚ)].sum = [(1:ℚ)].sum ∧ maxAbs [(1:ℚ)] ≤ 1) ∧
     ((∀ a ∈ [(1:ℚ)], 0 ≤ a ∧ a ≤ 1) → maxAbs [(1:ℚ)] ≤ 1 →
       [(1:ℚ)] = [(1:ℚ)])) := by
  have hfeas : DistributeFeasible [(1:ℚ)] 1 [(1:ℚ)] := by
    refine ⟨rfl, ?_, ?_, rfl⟩
    · intro a ha
      simp only [List.mem_singleton] at ha
      subst ha
      norm_num
    · norm_num [maxAbs]
  have hsol : IsDistributeSolution [(1:ℚ)] 1 [(1:ℚ)] :=
    ⟨hfeas, fun y hy => by rw [objective_self]; exact objective_nonneg _ y⟩
  exact ⟨hsol, distribute_solution _ _ _ hsol⟩

/-- Claim C9: every component of any solution of the program built by
`distribute` lies in `[0, 1]`: the box bounds `(0, 1)` constrain every
component for every input weight vector and cap, including signed
(negative) input weights, which the box silently excludes from the
output. -/
theorem distribute_output_box (weights : List ℚ) (max_weight : ℚ)
    (x : List ℚ) (hx : IsDistributeSolution weights max_weight x) :
    ∀ a ∈ x, 0 ≤ a ∧ a ≤ 1 :=
  hx.1.2.1

theorem distribute_output_box_witness :
    IsDistributeSolution [(0:ℚ)] 1 [(0:ℚ)] ∧
    ∀ a ∈ [(0:ℚ)], 0 ≤ a ∧ a ≤ 1 := by
  have hfeas : DistributeFeasible [(0:ℚ)] 1 [(0:ℚ)] := by
    refine ⟨rfl, ?_, ?_, rfl⟩
    · intro a ha
      simp only [List.mem_singleton] at ha
      subst ha
      norm_num
    · norm_num [maxAbs]
  have hsol : IsDistributeSolution [(0:ℚ)] 1 [(0:ℚ)] :=
    ⟨hfeas, fun y hy => by rw [objective_self]; exact objective_nonneg _ y⟩
  exact ⟨hsol, distribute_output_box _ _ _ hsol⟩

end AlphaSim
